import Mathlib

/-!
Verification development for the `obvi` bounding-volume-hierarchy (BVH) library.

The embedding below translates the parts of the C++ sources that the verified
properties are about:

* `src/include/obvi/util/vec3.hpp`  — 3-vectors (`Vec3`);
* `src/include/obvi/util/bbox.hpp`  — axis-aligned bounding boxes (`BBox`) with
  `expand`, `intersects_point`, `intersects_box`, `intersects_segment`,
  `intersects_segment_precalc`, `intersects_ray`;
* `src/include/obvi/util/math.hpp`  — `count_leading_zeros` and the clamp step
  of `morton_encode_30`;
* `src/util/bvh.cpp`                — `parallel_radix_sort`, `make_obj_list`'s
  centroid scaling, `find_split`, the recursive tree emitter `generate`, and
  the public `bvh::generate`;
* `src/include/obvi/util/bvh.hpp`   — `bvh::node`, `bvh::clear`, `bvh::size`,
  and the traversal loop `bvh::query::next`.

Scalar model.  Box coordinates are embedded as rationals (`ℚ`).  Every float
operation the box/tree code performs on coordinates — comparison, `std::min`,
`std::max`, and copying corners — is exact in IEEE arithmetic, so for NaN-free
inputs (NaN coordinates are caller error per the library) the rational model
computes exactly the values the float code computes.  The two places where
non-finite float values are essential — the slab ray test, which seeds the
interval with ±∞ and guards `isinf`, and the centroid scaling of
`make_obj_list`, which divides by a possibly-zero extent — are embedded
separately over `EF`, rationals extended with `+∞`, `-∞` and NaN following
IEEE semantics (finite operations are kept exact; at every concrete input used
in theorems below the corresponding float operations are exact as well).

The sorted entry list produced by `make_obj_list` + `parallel_radix_sort` is
passed to the tree-emission phase as an explicit parameter `objs`:
`parallel_radix_sort` as written scatters into a `std::vector` that is never
resized (see `parallelRadixSort` below, which models the out-of-bounds write
with a checked write), so structural theorems about the emitted tree quantify
over an arbitrary entry list and assume only what a correct stable sort of
`make_obj_list`'s output guarantees: the `idx` fields are a permutation of
`0, …, N-1`.
-/

/-- `std::min` on the rational scalar model: `(b < a) ? b : a`. -/
def stdMinQ (a b : ℚ) : ℚ := if b < a then b else a

/-- `std::max` on the rational scalar model: `(a < b) ? b : a`. -/
def stdMaxQ (a b : ℚ) : ℚ := if a < b then b else a

/-- `std::abs` on the rational scalar model. -/
def absQ (a : ℚ) : ℚ := if a < 0 then -a else a

/-- 3-vector with rational components (`vec3f` of `vec3.hpp`). -/
structure Vec3 where
  x : ℚ
  y : ℚ
  z : ℚ
deriving DecidableEq

/-- Componentwise order on vectors (used only in specifications). -/
def vecLe (a b : Vec3) : Prop := a.x ≤ b.x ∧ a.y ≤ b.y ∧ a.z ≤ b.z

/-- Axis-aligned bounding box (`bbox<float>` of `bbox.hpp`): a pair of corner
vectors. -/
structure BBox where
  minPt : Vec3
  maxPt : Vec3
deriving DecidableEq

/-- The default-constructed / `clear()`ed box: `min_pt = (1,0,0)`,
`max_pt = (-1,0,0)`, which satisfies the "empty" sentinel `min.x > max.x`. -/
def emptyBox : BBox := ⟨⟨1, 0, 0⟩, ⟨-1, 0, 0⟩⟩

/-- `bbox::is_empty`: `min_pt.x() > max_pt.x()`. -/
def BBox.isEmpty (b : BBox) : Bool := decide (b.maxPt.x < b.minPt.x)

/-- `bbox::expand(const bbox&)`: if *this* box is empty, copy the argument's
corners (whether or not the argument is empty); otherwise take the
componentwise min of the min corners and max of the max corners. -/
def expandBox (b box : BBox) : BBox :=
  if b.isEmpty then
    ⟨box.minPt, box.maxPt⟩
  else
    ⟨⟨stdMinQ b.minPt.x box.minPt.x, stdMinQ b.minPt.y box.minPt.y,
      stdMinQ b.minPt.z box.minPt.z⟩,
     ⟨stdMaxQ b.maxPt.x box.maxPt.x, stdMaxQ b.maxPt.y box.maxPt.y,
      stdMaxQ b.maxPt.z box.maxPt.z⟩⟩

/-- `bbox::intersects_point`. -/
def BBox.intersectsPoint (b : BBox) (pt : Vec3) : Bool :=
  decide (b.minPt.x ≤ pt.x) && decide (pt.x ≤ b.maxPt.x) &&
  decide (b.minPt.y ≤ pt.y) && decide (pt.y ≤ b.maxPt.y) &&
  decide (b.minPt.z ≤ pt.z) && decide (pt.z ≤ b.maxPt.z)

/-- `bbox::intersects_box`. -/
def BBox.intersectsBox (b box : BBox) : Bool :=
  if b.isEmpty || box.isEmpty then false
  else
    decide (b.minPt.x ≤ box.maxPt.x) && decide (box.minPt.x ≤ b.maxPt.x) &&
    decide (b.minPt.y ≤ box.maxPt.y) && decide (box.minPt.y ≤ b.maxPt.y) &&
    decide (b.minPt.z ≤ box.maxPt.z) && decide (box.minPt.z ≤ b.maxPt.z)

/-- `std::numeric_limits<float>::epsilon()`, the machine epsilon of the box
scalar type (`float`), used as the slack of the cross-axis SAT tests. -/
def machineEps : ℚ := 1 / 2 ^ 23

/-- `bbox::intersects_segment_precalc(d, seg_a_d, ad)`.  Note the source has
no emptiness check on this path (the non-precalc wrapper checks, the query
functor `bvh::intersect_segment` calls this directly). -/
def intersectsSegmentPrecalc (b : BBox) (d segAD ad : Vec3) : Bool :=
  let ex := (b.maxPt.x - b.minPt.x) * (1 / 2)
  let ey := (b.maxPt.y - b.minPt.y) * (1 / 2)
  let ez := (b.maxPt.z - b.minPt.z) * (1 / 2)
  let cx := segAD.x - (b.maxPt.x + b.minPt.x) * (1 / 2)
  let cy := segAD.y - (b.maxPt.y + b.minPt.y) * (1 / 2)
  let cz := segAD.z - (b.maxPt.z + b.minPt.z) * (1 / 2)
  if decide (ex + ad.x < absQ cx) then false
  else if decide (ey + ad.y < absQ cy) then false
  else if decide (ez + ad.z < absQ cz) then false
  else if decide (ey * ad.z + ez * ad.y + machineEps < absQ (d.y * cz - d.z * cy)) then false
  else if decide (ez * ad.x + ex * ad.z + machineEps < absQ (d.z * cx - d.x * cz)) then false
  else if decide (ex * ad.y + ey * ad.x + machineEps < absQ (d.x * cy - d.y * cx)) then false
  else true

/-- `bbox::intersects_segment(seg_a, seg_b)`: emptiness check, then the
precalc variant with `d = (b - a)/2`, `seg_a + d`, `|d|`. -/
def intersectsSegment (b : BBox) (segA segB : Vec3) : Bool :=
  if b.isEmpty then false
  else
    let d : Vec3 := ⟨(segB.x - segA.x) * (1 / 2), (segB.y - segA.y) * (1 / 2),
                     (segB.z - segA.z) * (1 / 2)⟩
    intersectsSegmentPrecalc b d ⟨segA.x + d.x, segA.y + d.y, segA.z + d.z⟩
      ⟨absQ d.x, absQ d.y, absQ d.z⟩

/-- IEEE-style extended scalar: finite rationals plus `+∞`, `-∞`, NaN.
Finite arithmetic is kept exact (no rounding); comments at use sites note
that the concrete inputs make the float operations exact too.  Signed zero is
not distinguished: the one place a zero is divided by (`1024 / (max - min)`
on a zero-extent axis) the float subtraction yields `+0`, matching the
unsigned zero here. -/
inductive EF where
  | fin (q : ℚ)
  | pinf
  | ninf
  | nan
deriving DecidableEq

/-- Float `<` (false on any NaN operand). -/
def EF.ltB : EF → EF → Bool
  | .nan, _ => false
  | _, .nan => false
  | .ninf, .ninf => false
  | .ninf, _ => true
  | _, .ninf => false
  | .fin a, .fin b => decide (a < b)
  | .fin _, .pinf => true
  | .pinf, _ => false

/-- Float `<=` (false on any NaN operand). -/
def EF.leB : EF → EF → Bool
  | .nan, _ => false
  | _, .nan => false
  | .ninf, _ => true
  | _, .ninf => false
  | .fin a, .fin b => decide (a ≤ b)
  | .fin _, .pinf => true
  | .pinf, .pinf => true
  | .pinf, .fin _ => false

/-- `std::isinf`. -/
def EF.isInfB : EF → Bool
  | .pinf => true
  | .ninf => true
  | _ => false

/-- Float addition. -/
def EF.add : EF → EF → EF
  | .nan, _ => .nan
  | _, .nan => .nan
  | .fin a, .fin b => .fin (a + b)
  | .pinf, .ninf => .nan
  | .ninf, .pinf => .nan
  | .pinf, _ => .pinf
  | _, .pinf => .pinf
  | .ninf, _ => .ninf
  | _, .ninf => .ninf

/-- Float subtraction. -/
def EF.sub : EF → EF → EF
  | .nan, _ => .nan
  | _, .nan => .nan
  | .fin a, .fin b => .fin (a - b)
  | .pinf, .pinf => .nan
  | .ninf, .ninf => .nan
  | .pinf, _ => .pinf
  | .ninf, _ => .ninf
  | .fin _, .pinf => .ninf
  | .fin _, .ninf => .pinf

/-- Float multiplication; `0 * ±∞ = NaN`. -/
def EF.mul : EF → EF → EF
  | .nan, _ => .nan
  | _, .nan => .nan
  | .fin a, .fin b => .fin (a * b)
  | .fin a, .pinf => if a = 0 then .nan else if 0 < a then .pinf else .ninf
  | .fin a, .ninf => if a = 0 then .nan else if 0 < a then .ninf else .pinf
  | .pinf, .fin b => if b = 0 then .nan else if 0 < b then .pinf else .ninf
  | .ninf, .fin b => if b = 0 then .nan else if 0 < b then .ninf else .pinf
  | .pinf, .pinf => .pinf
  | .pinf, .ninf => .ninf
  | .ninf, .pinf => .ninf
  | .ninf, .ninf => .pinf

/-- Float division; `x / 0 = ±∞` for `x ≠ 0` (the dividing zero in the code
is `max - min = +0`), `0 / 0 = NaN`. -/
def EF.div : EF → EF → EF
  | .nan, _ => .nan
  | _, .nan => .nan
  | .fin a, .fin b =>
      if b = 0 then (if a = 0 then .nan else if 0 < a then .pinf else .ninf)
      else .fin (a / b)
  | .fin _, .pinf => .fin 0
  | .fin _, .ninf => .fin 0
  | .pinf, .fin b => if 0 ≤ b then .pinf else .ninf
  | .ninf, .fin b => if 0 ≤ b then .ninf else .pinf
  | .pinf, _ => .nan
  | .ninf, _ => .nan

/-- `std::max(a, b) = (a < b) ? b : a`. -/
def EF.stdMax (a b : EF) : EF := if EF.ltB a b then b else a

/-- `std::min(a, b) = (b < a) ? b : a`. -/
def EF.stdMin (a b : EF) : EF := if EF.ltB b a then b else a

/-- 3-vector of extended floats (for the ray test and the centroid scaling). -/
structure EVec3 where
  x : EF
  y : EF
  z : EF
deriving DecidableEq

/-- Box with extended-float corners (only the ray test needs this view). -/
structure EBBox where
  minPt : EVec3
  maxPt : EVec3
deriving DecidableEq

/-- `bbox::is_empty` on the extended-float view. -/
def EBBox.isEmptyE (b : EBBox) : Bool := EF.ltB b.maxPt.x b.minPt.x

/-- One axis of the slab loop of `bbox::intersects_ray`: if `inv_norm_dir[i]`
is not infinite, shrink the `(tmin, tmax)` interval; otherwise return `false`
(modelled as `none`) when the origin lies outside the slab, else leave the
interval unchanged. -/
def rayAxis (st : Option (EF × EF)) (bmin bmax o iv : EF) : Option (EF × EF) :=
  match st with
  | none => none
  | some (tmin, tmax) =>
      if iv.isInfB = false then
        let t0 := EF.mul (EF.sub bmin o) iv
        let t1 := EF.mul (EF.sub bmax o) iv
        some (EF.stdMax tmin (EF.stdMin t0 t1), EF.stdMin tmax (EF.stdMax t0 t1))
      else if EF.ltB o bmin || EF.ltB bmax o then none
      else some (tmin, tmax)

/-- `bbox::intersects_ray(origin, inv_norm_dir)`: emptiness check, then the
slab method with `tmin = -∞`, `tmax = +∞` and the three axes in order, and
finally `tmax >= tmin && tmax >= 0`. -/
def intersectsRay (b : EBBox) (origin invDir : EVec3) : Bool :=
  if b.isEmptyE then false
  else
    let st0 : Option (EF × EF) := some (EF.ninf, EF.pinf)
    let st1 := rayAxis st0 b.minPt.x b.maxPt.x origin.x invDir.x
    let st2 := rayAxis st1 b.minPt.y b.maxPt.y origin.y invDir.y
    let st3 := rayAxis st2 b.minPt.z b.maxPt.z origin.z invDir.z
    match st3 with
    | none => false
    | some (tmin, tmax) => EF.leB tmin tmax && EF.leB (EF.fin 0) tmax

/-- `1024.0f / (root_box.max_pt - root_box.min_pt)`, the componentwise
centroid scale of `make_obj_list` (`+∞` on a zero-extent axis). -/
def scaleMult (root : BBox) : EVec3 :=
  ⟨EF.div (EF.fin 1024) (EF.sub (EF.fin root.maxPt.x) (EF.fin root.minPt.x)),
   EF.div (EF.fin 1024) (EF.sub (EF.fin root.maxPt.y) (EF.fin root.minPt.y)),
   EF.div (EF.fin 1024) (EF.sub (EF.fin root.maxPt.z) (EF.fin root.minPt.z))⟩

/-- `bbox::center() = (min_pt + max_pt) * 0.5`, on the extended-float view. -/
def centerE (b : BBox) : EVec3 :=
  ⟨EF.mul (EF.add (EF.fin b.minPt.x) (EF.fin b.maxPt.x)) (EF.fin (1 / 2)),
   EF.mul (EF.add (EF.fin b.minPt.y) (EF.fin b.maxPt.y)) (EF.fin (1 / 2)),
   EF.mul (EF.add (EF.fin b.minPt.z) (EF.fin b.maxPt.z)) (EF.fin (1 / 2))⟩

/-- `(boxes[i].center() - root_box.min_pt) * mult` of `make_obj_list`: the
vector handed to `morton_encode_30`. -/
def scaledCenter (b root : BBox) : EVec3 :=
  ⟨EF.mul (EF.sub (centerE b).x (EF.fin root.minPt.x)) (scaleMult root).x,
   EF.mul (EF.sub (centerE b).y (EF.fin root.minPt.y)) (scaleMult root).y,
   EF.mul (EF.sub (centerE b).z (EF.fin root.minPt.z)) (scaleMult root).z⟩

/-- The clamp step of `morton_encode_30`:
`std::min(std::max(v, 0), 1023)`; its result is what `uint32_t(...)` is
applied to. -/
def mortonClamp (v : EF) : EF := EF.stdMin (EF.stdMax v (EF.fin 0)) (EF.fin 1023)

/-- Sort entry (`struct obj` of `bvh.cpp`): Morton code and input index. -/
structure Obj where
  code : Nat
  idx : Nat
deriving DecidableEq

/-- Default entry used for total-function indexing (the C++ code only indexes
in bounds on the paths the theorems cover). -/
def dObj : Obj := ⟨0, 0⟩

/-- BVH node (`bvh::node`): box plus tagged `num` word. -/
structure Node where
  box : BBox
  num : Nat
deriving DecidableEq

/-- `node::is_leaf`: `num > 0x7FFFFFFF`. -/
def Node.isLeaf (n : Node) : Bool := decide (0x7FFFFFFF < n.num)

/-- `node::subtree_size`: 1 for a leaf, otherwise the stored `num`. -/
def Node.subtreeSize (n : Node) : Nat := if n.isLeaf then 1 else n.num

/-- Floor base-2 logarithm with explicit fuel (32 suffices for 32-bit
values); same recursion as `Nat.log2`, made structural. -/
def log2F : Nat → Nat → Nat
  | 0, _ => 0
  | fuel + 1, n => if 2 ≤ n then log2F fuel (n / 2) + 1 else 0

/-- `count_leading_zeros` on 32-bit values: 32 for 0, else `31 - ⌊log₂ x⌋`
(the value `__builtin_clz` returns for 32-bit operands). -/
def clz32 (x : Nat) : Nat := if x = 0 then 32 else 31 - log2F 32 x

/-- The binary-search loop of `find_split` (`do { ... } while (step > 1)`).
Arguments mirror the C++ locals; one call is one loop iteration. -/
def findSplitLoop (objs : List Obj) (firstCode common last split step : Nat) : Nat :=
  let step1 := (step + 1) / 2
  let newSplit := split + step1
  let split1 :=
    if newSplit < last ∧ common < clz32 (firstCode ^^^ (objs.getD newSplit dObj).code)
    then newSplit else split
  if _h : 1 < step1 then findSplitLoop objs firstCode common last split1 step1 else split1
termination_by step
decreasing_by
  omega

/-- `find_split(objs, first, last)`. -/
def findSplit (objs : List Obj) (first last : Nat) : Nat :=
  let firstCode := (objs.getD first dObj).code
  let lastCode := (objs.getD last dObj).code
  if firstCode = lastCode then (first + last) / 2
  else
    let common := clz32 (firstCode ^^^ lastCode)
    findSplitLoop objs firstCode common last first (last - first)

/-- The box-accumulation loops of the recursive `generate`:
`curr_box.clear(); for i in lo..=hi curr_box.expand(boxes[objs[i].idx])`. -/
def rangeBox (boxes : List BBox) (objs : List Obj) (lo hi : Nat) : BBox :=
  ((List.range (hi + 1 - lo)).map
      (fun k => boxes.getD (objs.getD (lo + k) dObj).idx emptyBox)).foldl
    expandBox emptyBox

/-- The recursive tree emitter (file-local `generate` of `bvh.cpp`), with an
explicit fuel argument to make the recursion structural; `emitF` with any fuel
exceeding `last - first` agrees with the C++ recursion on every call the
builder makes (the builder only calls it with `first ≤ last`).  A leaf stores
`(1 << 31) | objs[first].idx`; an internal node stores `last - first + 1`. -/
def emitF (boxes : List BBox) (objs : List Obj) :
    Nat → BBox → Nat → Nat → List Node
  | 0, _, _, _ => []
  | fuel + 1, curr, first, last =>
    if first = last then
      [⟨curr, (1 <<< 31) ||| (objs.getD first dObj).idx⟩]
    else
      let split := findSplit objs first last
      ⟨curr, last - first + 1⟩ ::
        (emitF boxes objs fuel (rangeBox boxes objs first split) first split ++
         emitF boxes objs fuel (rangeBox boxes objs (split + 1) last) (split + 1) last)

/-- `root_box` of `bvh::generate`: fold `expand` over the input boxes in
input order, starting from the default (empty) box. -/
def rootBox (boxes : List BBox) : BBox := boxes.foldl expandBox emptyBox

/-- The node array `bvh::generate` builds for `N ≥ 1` boxes, given the sorted
entry list `objs`: the recursive emitter on the full range `[0, N-1]` seeded
with the root box. -/
def generateTree (boxes : List BBox) (objs : List Obj) : List Node :=
  emitF boxes objs boxes.length (rootBox boxes) 0 (boxes.length - 1)

/-- The `bvh` object's state: node array and `num_leaves`. -/
structure Bvh where
  tree : List Node
  numLeaves : Nat
deriving DecidableEq

/-- `bvh::clear()`. -/
def bvhClear (_b : Bvh) : Bvh := ⟨[], 0⟩

/-- `bvh::generate(boxes)`; `objs` stands for the sorted entry list (see the
file comment).  Mirrors the source: clear, size gate at `2^30`, empty-input
early return, then tree emission.  No statement in the source modifies
`num_leaves`, so it stays 0. -/
def bvhGenerate (b : Bvh) (boxes : List BBox) (objs : List Obj) : Bool × Bvh :=
  let b1 := bvhClear b
  if 2 ^ 30 < boxes.length then (false, b1)
  else if boxes.length = 0 then (true, b1)
  else (true, { b1 with tree := generateTree boxes objs })

/-- `bvh::size()`: returns `num_leaves`. -/
def bvhSize (b : Bvh) : Nat := b.numLeaves

/-- `bvh::query::next(out_match)`, fuel-indexed.  State: the cursor
`next_node`, whether `out_match` is non-null (`hasPtr`), and the memory cell
behind the pointer (`cell`).  Returns the boolean result, the new cursor, and
the cell's final contents.  One unit of fuel is one iteration of the `while`
loop; on the trees `generate` emits, `tree.length + 1` fuel is never
exhausted (each iteration advances the cursor). -/
def nextQF (L : List Node) (pred : BBox → Bool) :
    Nat → Nat → Bool → Option Nat → Bool × Nat × Option Nat
  | 0, c, _, cell => (false, c, cell)
  | fuel + 1, c, hasPtr, cell =>
    if h : c < L.length then
      let nd := L.get ⟨c, h⟩
      if pred nd.box then
        if nd.isLeaf then
          (true, c + 1, if hasPtr then some (nd.num &&& 0x7FFFFFFF) else cell)
        else nextQF L pred fuel (c + 1) hasPtr cell
      else nextQF L pred fuel (c + nd.subtreeSize) hasPtr cell
    else (false, c, cell)

/-- Repeatedly call `next` with a valid out pointer, collecting the yielded
indices until it returns false (fuel bounds the number of yields). -/
def drainQF (L : List Node) (pred : BBox → Bool) : Nat → Nat → List Nat
  | 0, _ => []
  | fuel + 1, c =>
    match nextQF L pred (L.length + 1) c true none with
    | (true, c1, cell) => cell.getD 0 :: drainQF L pred fuel c1
    | (false, _, _) => []

/-- The full sequence of indices a query constructed on `L` yields. -/
def drainQ (L : List Node) (pred : BBox → Bool) : List Nat :=
  drainQF L pred (L.length + 1) 0

/-- Worklist view of the traversal loop: the list is the suffix of the node
array starting at the cursor, so the cursor arithmetic of `next` becomes
`drop`.  Used as a proof vehicle; `drainQ` is related to it below. -/
def scanQ (pred : BBox → Bool) : List Node → List Nat
  | [] => []
  | nd :: rest =>
    if pred nd.box then
      if nd.isLeaf then (nd.num &&& 0x7FFFFFFF) :: scanQ pred rest
      else scanQ pred rest
    else scanQ pred (rest.drop (nd.subtreeSize - 1))
termination_by L => L.length
decreasing_by
  · simp
  · simp
  · simp only [List.length_drop, List.length_cons]
    omega

/-- Binary tree mirroring the recursion structure of the emitter; its
pre-order flattening (`BT.flat`) reproduces the emitted node list. -/
inductive BT where
  | lf (box : BBox) (oid : Nat)
  | nd (box : BBox) (l r : BT)

/-- Object indices of the leaves, in emission order. -/
def BT.leaves : BT → List Nat
  | .lf _ i => [i]
  | .nd _ l r => l.leaves ++ r.leaves

/-- Pre-order flattening with the source's node encoding: a leaf stores
`(1 <<< 31) ||| oid`, an internal node stores its leaf count. -/
def BT.flat : BT → List Node
  | .lf b i => [⟨b, (1 <<< 31) ||| i⟩]
  | .nd b l r => ⟨b, l.leaves.length + r.leaves.length⟩ :: (l.flat ++ r.flat)

/-- Tree-shaped twin of `emitF` (same fuel, same recursion). -/
def buildF (boxes : List BBox) (objs : List Obj) : Nat → BBox → Nat → Nat → BT
  | 0, curr, first, _ => .lf curr (objs.getD first dObj).idx
  | fuel + 1, curr, first, last =>
    if first = last then .lf curr (objs.getD first dObj).idx
    else
      let split := findSplit objs first last
      .nd curr (buildF boxes objs fuel (rangeBox boxes objs first split) first split)
        (buildF boxes objs fuel (rangeBox boxes objs (split + 1) last) (split + 1) last)

/-- `boxLe c b`: any point inside `c` is inside `b` (trivially so when `c` is
empty).  This is the containment the traversal proof needs. -/
def boxLe (c b : BBox) : Prop :=
  c.isEmpty = true ∨ (vecLe b.minPt c.minPt ∧ vecLe c.maxPt b.maxPt)

/-- Well-formedness of an emitted subtree relative to the input boxes: leaf
boxes are exactly the corresponding input boxes, every object box in a
subtree is contained in the subtree root's box, object indices fit in 31
bits, and internal `num` words stay below `2^31` (so their tag bit is 0). -/
def BT.wf (boxes : List BBox) : BT → Prop
  | .lf b i => b = boxes.getD i emptyBox ∧ i < 2 ^ 31
  | .nd b l r =>
      l.wf boxes ∧ r.wf boxes ∧
      (∀ i ∈ l.leaves ++ r.leaves, boxLe (boxes.getD i emptyBox) b) ∧
      l.leaves.length + r.leaves.length < 2 ^ 31

/-- `(v >> shift) & mask` of the radix sort (`digits`), with `mask = 255`. -/
def digitsOf (v shift : Nat) : Nat := (v >>> shift) &&& 255

/-- One thread's histogram pass of `parallel_radix_sort` (the sequential
elaboration: one worker, `local_bucket` over the whole input).  The bucket
array is modelled as a function `Nat → Nat`.  Reads are bounds-checked
(`objs[i]` for `i < nobjs`); `nobjs` is the value frozen before the passes. -/
def buildHisto (objs : List Obj) (nobjs shift : Nat) : Option (Nat → Nat) :=
  (List.range nobjs).foldlM
    (fun buckets i =>
      (objs.get? i).map fun o =>
        fun j => if j = digitsOf o.code shift then buckets j + 1 else buckets j)
    (fun _ => 0)

/-- The in-place prefix-sum loop `for i in 1..256: bucket[i] += bucket[i-1]`,
turning counts into inclusive prefix sums. -/
def prefixSums (b : Nat → Nat) : Nat → Nat :=
  (List.range 255).foldl
    (fun b i => fun j => if j = i + 1 then b (i + 1) + b i else b j) b

/-- The scatter loop: `buffer[local_bucket[digit]++] = objs[i]`.  The write is
bounds-checked: `buffer` is the `std::vector` declared in
`parallel_radix_sort` and never resized, so in the first pass it has length 0
and `buffer[pos] = ...` is an out-of-bounds write, modelled as `none`. -/
def scatterPass (objs : List Obj) (nobjs shift : Nat) (starts : Nat → Nat)
    (buffer : List Obj) : Option (List Obj) :=
  ((List.range nobjs).foldlM
    (fun (st : List Obj × (Nat → Nat)) i => do
      let o ← objs.get? i
      let d := digitsOf o.code shift
      let pos := st.2 d
      if pos < st.1.length then
        some (st.1.set pos o, fun j => if j = d then st.2 d + 1 else st.2 j)
      else none)
    (buffer, starts)).map Prod.fst

/-- One of the four passes of `parallel_radix_sort` (sequential elaboration
with one worker): histogram, prefix sums, conversion to exclusive start
positions (`bucket[i] -= local_bucket[i]`), scatter, then
`std::swap(objs, buffer)`. -/
def radixPass (st : List Obj × List Obj) (shift nobjs : Nat) :
    Option (List Obj × List Obj) := do
  let (objs, buffer) := st
  let h ← buildHisto objs nobjs shift
  let ps := prefixSums h
  let starts := fun j => ps j - h j
  let buf1 ← scatterPass objs nobjs shift starts buffer
  return (buf1, objs)

/-- `parallel_radix_sort(objs)`: `buffer` starts as an empty vector, `nobjs`
is frozen, and four 8-bit passes run (shifts 0, 8, 16, 24). -/
def parallelRadixSort (objs0 : List Obj) : Option (List Obj) := do
  let nobjs := objs0.length
  let st1 ← radixPass (objs0, []) 0 nobjs
  let st2 ← radixPass st1 8 nobjs
  let st3 ← radixPass st2 16 nobjs
  let st4 ← radixPass st3 24 nobjs
  return st4.1

/-! ### Basic facts about the split search -/

theorem findSplitLoop_bounds (objs : List Obj) (fc co last : Nat) :
    ∀ step split, split < last →
      split ≤ findSplitLoop objs fc co last split step ∧
      findSplitLoop objs fc co last split step < last := by
  intro step
  induction step using Nat.strong_induction_on with
  | _ step ih =>
    intro split hsl
    rw [findSplitLoop]
    set step1 := (step + 1) / 2 with hstep1
    set newSplit := split + step1 with hnew
    set split1 :=
      if newSplit < last ∧ co < clz32 (fc ^^^ (objs.getD newSplit dObj).code)
      then newSplit else split with hsplit1
    have hs1le : split ≤ split1 := by
      rw [hsplit1]; split
      · omega
      · exact le_rfl
    have hs1lt : split1 < last := by
      rw [hsplit1]; split
      · next hcond => exact hcond.1
      · exact hsl
    by_cases hrec : 1 < step1
    · rw [dif_pos hrec]
      have hdec : step1 < step := by omega
      have := ih step1 hdec split1 hs1lt
      exact ⟨le_trans hs1le this.1, this.2⟩
    · rw [dif_neg hrec]
      exact ⟨hs1le, hs1lt⟩

theorem findSplit_bounds (objs : List Obj) {first last : Nat} (h : first < last) :
    first ≤ findSplit objs first last ∧ findSplit objs first last < last := by
  rw [findSplit]
  split
  · constructor <;> omega
  · exact findSplitLoop_bounds objs _ _ last (last - first) first h

/-! ### Basic facts about boxes and the containment order -/

theorem isEmpty_not_intersectsPoint {b : BBox} (h : b.isEmpty = true) (p : Vec3) :
    b.intersectsPoint p = false := by
  have hb : b.maxPt.x < b.minPt.x := by
    simpa [BBox.isEmpty] using h
  apply Bool.eq_false_iff.mpr
  intro hT
  simp only [BBox.intersectsPoint, Bool.and_eq_true, decide_eq_true_eq] at hT
  linarith [hT.1.1.1.1.1, hT.1.1.1.1.2]

theorem nonempty_min_le_max {b : BBox} (h : b.isEmpty = false) :
    b.minPt.x ≤ b.maxPt.x := by
  simp only [BBox.isEmpty, decide_eq_false_iff_not, not_lt] at h
  exact h

theorem intersectsPoint_mono {c b : BBox} {p : Vec3} (hcb : boxLe c b)
    (h : c.intersectsPoint p = true) : b.intersectsPoint p = true := by
  rcases hcb with he | ⟨h1, h2⟩
  · rw [isEmpty_not_intersectsPoint he p] at h; exact absurd h (by simp)
  · simp only [BBox.intersectsPoint, Bool.and_eq_true, decide_eq_true_eq] at h ⊢
    obtain ⟨⟨⟨⟨⟨px1, px2⟩, py1⟩, py2⟩, pz1⟩, pz2⟩ := h
    obtain ⟨mx, my, mz⟩ := h1
    obtain ⟨Mx, My, Mz⟩ := h2
    exact ⟨⟨⟨⟨⟨by linarith, by linarith⟩, by linarith⟩, by linarith⟩, by linarith⟩,
      by linarith⟩

theorem stdMinQ_le_left (a b : ℚ) : stdMinQ a b ≤ a := by
  rw [stdMinQ]; split <;> linarith

theorem stdMinQ_le_right (a b : ℚ) : stdMinQ a b ≤ b := by
  rw [stdMinQ]; split <;> linarith

theorem le_stdMaxQ_left (a b : ℚ) : a ≤ stdMaxQ a b := by
  rw [stdMaxQ]; split <;> linarith

theorem le_stdMaxQ_right (a b : ℚ) : b ≤ stdMaxQ a b := by
  rw [stdMaxQ]; split <;> linarith

theorem boxLe_expand_left (b a : BBox) : boxLe b (expandBox b a) := by
  by_cases hb : b.isEmpty
  · exact Or.inl hb
  · rw [expandBox, if_neg (by simp [hb])]
    refine Or.inr ⟨⟨?_, ?_, ?_⟩, ⟨?_, ?_, ?_⟩⟩ <;>
      first
        | exact stdMinQ_le_left _ _
        | exact le_stdMaxQ_left _ _

theorem boxLe_expand_right (b a : BBox) : boxLe a (expandBox b a) := by
  by_cases ha : a.isEmpty
  · exact Or.inl ha
  · by_cases hb : b.isEmpty
    · rw [expandBox, if_pos hb]
      exact Or.inr ⟨⟨le_refl _, le_refl _, le_refl _⟩, ⟨le_refl _, le_refl _, le_refl _⟩⟩
    · rw [expandBox, if_neg (by simp [hb])]
      refine Or.inr ⟨⟨?_, ?_, ?_⟩, ⟨?_, ?_, ?_⟩⟩ <;>
        first
          | exact stdMinQ_le_right _ _
          | exact le_stdMaxQ_right _ _

theorem boxLe_expand_mono {c s : BBox} (h : boxLe c s) (a : BBox) :
    boxLe c (expandBox s a) := by
  rcases h with he | ⟨h1, h2⟩
  · exact Or.inl he
  · by_cases hc : c.isEmpty
    · exact Or.inl hc
    · have hs : s.isEmpty = false := by
        simp only [BBox.isEmpty, decide_eq_false_iff_not, not_lt]
        have := nonempty_min_le_max (b := c) (by simpa using hc)
        calc s.minPt.x ≤ c.minPt.x := h1.1
          _ ≤ c.maxPt.x := this
          _ ≤ s.maxPt.x := h2.1
      rw [expandBox, if_neg (by simp [hs])]
      refine Or.inr ⟨⟨?_, ?_, ?_⟩, ⟨?_, ?_, ?_⟩⟩
      · exact le_trans (stdMinQ_le_left _ _) h1.1
      · exact le_trans (stdMinQ_le_left _ _) h1.2.1
      · exact le_trans (stdMinQ_le_left _ _) h1.2.2
      · exact le_trans h2.1 (le_stdMaxQ_left _ _)
      · exact le_trans h2.2.1 (le_stdMaxQ_left _ _)
      · exact le_trans h2.2.2 (le_stdMaxQ_left _ _)

theorem boxLe_foldl {c : BBox} :
    ∀ (L : List BBox) (s : BBox), boxLe c s → boxLe c (L.foldl expandBox s) := by
  intro L
  induction L with
  | nil => intro s h; exact h
  | cons a t ih => intro s h; exact ih (expandBox s a) (boxLe_expand_mono h a)

theorem mem_boxLe_foldl :
    ∀ (L : List BBox) (s : BBox) {b : BBox}, b ∈ L → boxLe b (L.foldl expandBox s) := by
  intro L
  induction L with
  | nil => intro s b h; cases h
  | cons a t ih =>
    intro s b h
    rcases List.mem_cons.mp h with rfl | hmem
    · exact boxLe_foldl t (expandBox s b) (boxLe_expand_right s b)
    · exact ih (expandBox s a) hmem

theorem boxLe_rangeBox (boxes : List BBox) (objs : List Obj) {lo hi i : Nat}
    (h1 : lo ≤ i) (h2 : i ≤ hi) :
    boxLe (boxes.getD (objs.getD i dObj).idx emptyBox) (rangeBox boxes objs lo hi) := by
  apply mem_boxLe_foldl
  refine List.mem_map.mpr ⟨i - lo, ?_, ?_⟩
  · rw [List.mem_range]; omega
  · congr 3; omega

theorem rangeBox_singleton (boxes : List BBox) (objs : List Obj) (k : Nat) :
    rangeBox boxes objs k k = boxes.getD (objs.getD k dObj).idx emptyBox := by
  have h1 : k + 1 - k = 1 := by omega
  rw [rangeBox, h1]
  simp [List.range_succ, expandBox, emptyBox, BBox.isEmpty]

theorem boxLe_rootBox (boxes : List BBox) {i : Nat} (h : i < boxes.length) :
    boxLe (boxes.getD i emptyBox) (rootBox boxes) := by
  apply mem_boxLe_foldl
  rw [List.getD_eq_getElem?_getD, List.getElem?_eq_getElem h]
  exact List.getElem_mem h

/-! ### The node encoding -/

theorem leafNum_eq {i : Nat} (h : i < 2 ^ 31) : (1 <<< 31) ||| i = 2 ^ 31 + i := by
  have h1 : (1 <<< 31) = 2 ^ 31 := by simp [Nat.shiftLeft_eq]
  have h2 := (Nat.mul_add_lt_is_or h 1).symm
  rw [h1]
  simpa using h2

theorem pow31_val : (2 : Nat) ^ 31 = 2147483648 := by norm_num

theorem isLeaf_leafNode {b : BBox} {i : Nat} (h : i < 2 ^ 31) :
    Node.isLeaf ⟨b, (1 <<< 31) ||| i⟩ = true := by
  simp only [Node.isLeaf, leafNum_eq h, decide_eq_true_eq]
  have := pow31_val
  omega

theorem isLeaf_internal {b : BBox} {m : Nat} (h : m < 2 ^ 31) :
    Node.isLeaf ⟨b, m⟩ = false := by
  simp only [Node.isLeaf, decide_eq_false_iff_not, not_lt]
  have := pow31_val
  omega

theorem decode_leafNode {i : Nat} (h : i < 2 ^ 31) :
    ((1 <<< 31) ||| i) &&& 0x7FFFFFFF = i := by
  rw [leafNum_eq h]
  have h31 : (0x7FFFFFFF : Nat) = 2 ^ 31 - 1 := by norm_num
  rw [h31, Nat.and_pow_two_sub_one_eq_mod, Nat.add_mod_left, Nat.mod_eq_of_lt h]

theorem subtreeSize_leafNode {b : BBox} {i : Nat} (h : i < 2 ^ 31) :
    Node.subtreeSize ⟨b, (1 <<< 31) ||| i⟩ = 1 := by
  rw [Node.subtreeSize, isLeaf_leafNode h]
  simp

theorem subtreeSize_internal {b : BBox} {m : Nat} (h : m < 2 ^ 31) :
    Node.subtreeSize ⟨b, m⟩ = m := by
  simp [Node.subtreeSize, isLeaf_internal h]

/-! ### Structure of the emitted tree -/

theorem leaves_length_pos : ∀ t : BT, 1 ≤ t.leaves.length := by
  intro t
  induction t with
  | lf b i => simp [BT.leaves]
  | nd b l r ihl ihr => simp only [BT.leaves, List.length_append]; omega

theorem flat_length : ∀ t : BT, t.flat.length = 2 * t.leaves.length - 1 := by
  intro t
  induction t with
  | lf b i => simp [BT.flat, BT.leaves]
  | nd b l r ihl ihr =>
    have hl := leaves_length_pos l
    have hr := leaves_length_pos r
    simp only [BT.flat, BT.leaves, List.length_cons, List.length_append]
    omega

theorem buildF_leaves (boxes : List BBox) (objs : List Obj) :
    ∀ fuel first last curr, first ≤ last → last - first < fuel →
      (buildF boxes objs fuel curr first last).leaves =
        (List.range (last + 1 - first)).map (fun k => (objs.getD (first + k) dObj).idx) := by
  intro fuel
  induction fuel with
  | zero => intro first last curr h1 h2; omega
  | succ fuel ih =>
    intro first last curr h1 h2
    rw [buildF]
    by_cases he : first = last
    · subst he
      rw [if_pos rfl]
      have : first + 1 - first = 1 := by omega
      simp [BT.leaves, this, List.range_succ]
    · rw [if_neg he]
      have hfl : first < last := lt_of_le_of_ne h1 he
      obtain ⟨hs1, hs2⟩ := findSplit_bounds objs hfl
      set split := findSplit objs first last with hsplit
      simp only [BT.leaves]
      rw [ih first split _ hs1 (by omega), ih (split + 1) last _ (by omega) (by omega)]
      have hsum : last + 1 - first = (split + 1 - first) + (last - split) := by omega
      rw [hsum, List.range_add, List.map_append, List.map_map]
      congr 1
      · have : last - split = last + 1 - (split + 1) := by omega
        rw [← this]
        apply List.map_congr_left
        intro k hk
        rw [List.mem_range] at hk
        simp only [Function.comp_apply]
        congr 2
        omega

theorem buildF_lcount (boxes : List BBox) (objs : List Obj)
    {fuel first last : Nat} (curr : BBox) (h1 : first ≤ last) (h2 : last - first < fuel) :
    (buildF boxes objs fuel curr first last).leaves.length = last - first + 1 := by
  rw [buildF_leaves boxes objs fuel first last curr h1 h2]
  simp only [List.length_map, List.length_range]
  omega

theorem emitF_eq_flat (boxes : List BBox) (objs : List Obj) :
    ∀ fuel first last curr, first ≤ last → last - first < fuel →
      emitF boxes objs fuel curr first last = (buildF boxes objs fuel curr first last).flat := by
  intro fuel
  induction fuel with
  | zero => intro first last curr h1 h2; omega
  | succ fuel ih =>
    intro first last curr h1 h2
    rw [emitF, buildF]
    by_cases he : first = last
    · subst he; rw [if_pos rfl, if_pos rfl]; rfl
    · rw [if_neg he, if_neg he]
      have hfl : first < last := lt_of_le_of_ne h1 he
      obtain ⟨hs1, hs2⟩ := findSplit_bounds objs hfl
      set split := findSplit objs first last with hsplit
      simp only [BT.flat]
      rw [ih first split _ hs1 (by omega), ih (split + 1) last _ (by omega) (by omega),
        buildF_lcount boxes objs _ hs1 (by omega),
        buildF_lcount boxes objs _ (by omega : split + 1 ≤ last) (by omega)]
      congr 2
      omega

theorem buildF_wf (boxes : List BBox) (objs : List Obj) :
    ∀ fuel first last curr, first ≤ last → last - first < fuel →
      (first = last → curr = boxes.getD (objs.getD first dObj).idx emptyBox) →
      (∀ k, first ≤ k → k ≤ last →
        boxLe (boxes.getD (objs.getD k dObj).idx emptyBox) curr) →
      (∀ k, first ≤ k → k ≤ last → (objs.getD k dObj).idx < 2 ^ 31) →
      last - first + 1 < 2 ^ 31 →
      (buildF boxes objs fuel curr first last).wf boxes := by
  intro fuel
  induction fuel with
  | zero => intro first last curr h1 h2; omega
  | succ fuel ih =>
    intro first last curr h1 h2 hleaf hcur hidx hsize
    rw [buildF]
    by_cases he : first = last
    · rw [if_pos he]
      exact ⟨hleaf he, hidx first le_rfl h1⟩
    · rw [if_neg he]
      have hfl : first < last := lt_of_le_of_ne h1 he
      obtain ⟨hs1, hs2⟩ := findSplit_bounds objs hfl
      set split := findSplit objs first last with hsplit
      refine ⟨?_, ?_, ?_, ?_⟩
      · apply ih first split _ hs1 (by omega)
        · intro hfs
          rw [← hfs, rangeBox_singleton, hfs]
        · intro k hk1 hk2
          exact boxLe_rangeBox boxes objs hk1 hk2
        · intro k hk1 hk2
          exact hidx k hk1 (by omega)
        · omega
      · apply ih (split + 1) last _ (by omega) (by omega)
        · intro hfs
          rw [hfs, rangeBox_singleton]
        · intro k hk1 hk2
          exact boxLe_rangeBox boxes objs hk1 hk2
        · intro k hk1 hk2
          exact hidx k (by omega) hk2
        · omega
      · intro i hi
        rw [List.mem_append] at hi
        have hmem : ∃ k, first ≤ k ∧ k ≤ last ∧ i = (objs.getD k dObj).idx := by
          rcases hi with hl | hr
          · rw [buildF_leaves boxes objs fuel first split _ hs1 (by omega)] at hl
            obtain ⟨k, hk, hkeq⟩ := List.mem_map.mp hl
            rw [List.mem_range] at hk
            exact ⟨first + k, by omega, by omega, hkeq.symm⟩
          · rw [buildF_leaves boxes objs fuel (split + 1) last _ (by omega) (by omega)] at hr
            obtain ⟨k, hk, hkeq⟩ := List.mem_map.mp hr
            rw [List.mem_range] at hk
            exact ⟨split + 1 + k, by omega, by omega, hkeq.symm⟩
        obtain ⟨k, hk1, hk2, rfl⟩ := hmem
        exact hcur k hk1 hk2
      · rw [buildF_lcount boxes objs _ hs1 (by omega),
          buildF_lcount boxes objs _ (by omega : split + 1 ≤ last) (by omega)]
        omega

theorem wf_subtreeSize_pos (boxes : List BBox) :
    ∀ t : BT, t.wf boxes → ∀ nd ∈ t.flat, 1 ≤ nd.subtreeSize := by
  intro t
  induction t with
  | lf b i =>
    intro hwf nd hmem
    simp only [BT.flat, List.mem_singleton] at hmem
    subst hmem
    rw [subtreeSize_leafNode hwf.2]
  | nd b l r ihl ihr =>
    intro hwf nd hmem
    obtain ⟨hwl, hwr, _, hbound⟩ := hwf
    simp only [BT.flat, List.mem_cons, List.mem_append] at hmem
    rcases hmem with rfl | hl | hr
    · rw [subtreeSize_internal hbound]
      have := leaves_length_pos l
      omega
    · exact ihl hwl nd hl
    · exact ihr hwr nd hr

theorem flat_filter_decode (boxes : List BBox) :
    ∀ t : BT, t.wf boxes →
      ((t.flat.filter fun nd => nd.isLeaf).map fun nd => nd.num &&& 0x7FFFFFFF) =
        t.leaves := by
  intro t
  induction t with
  | lf b i =>
    intro hwf
    simp only [BT.flat, BT.leaves]
    rw [List.filter_cons_of_pos (by exact isLeaf_leafNode hwf.2), List.filter_nil,
      List.map_cons, List.map_nil, decode_leafNode hwf.2]
  | nd b l r ihl ihr =>
    intro hwf
    obtain ⟨hwl, hwr, _, hbound⟩ := hwf
    simp only [BT.flat, BT.leaves]
    rw [List.filter_cons_of_neg (by simp [isLeaf_internal hbound]), List.filter_append,
      List.map_append, ihl hwl, ihr hwr]

theorem map_getD_range :
    ∀ objs : List Obj,
      (List.range objs.length).map (fun k => (objs.getD k dObj).idx) =
        objs.map Obj.idx := by
  intro objs
  induction objs with
  | nil => simp
  | cons o t ih =>
    simp only [List.length_cons, List.range_succ_eq_map, List.map_cons, List.map_map]
    have hf : ((fun k => ((o :: t).getD k dObj).idx) ∘ Nat.succ) =
        fun k => (t.getD k dObj).idx := rfl
    rw [hf, ih]
    rfl

/-! ### The traversal loop on the worklist view -/

theorem scanQ_nil (pred : BBox → Bool) : scanQ pred [] = [] := by
  rw [scanQ]

theorem scanQ_cons (pred : BBox → Bool) (nd : Node) (rest : List Node) :
    scanQ pred (nd :: rest) =
      if pred nd.box then
        if nd.isLeaf then (nd.num &&& 0x7FFFFFFF) :: scanQ pred rest
        else scanQ pred rest
      else scanQ pred (rest.drop (nd.subtreeSize - 1)) := by
  rw [scanQ]

theorem scanQ_skip (boxes : List BBox) (pred : BBox → Bool) :
    ∀ t : BT, t.wf boxes →
      (∀ i ∈ t.leaves, pred (boxes.getD i emptyBox) = false) →
      ∀ d rest, d ≤ t.flat.length →
        scanQ pred (t.flat.drop d ++ rest) = scanQ pred rest := by
  intro t
  induction t with
  | lf b i =>
    intro hwf hmiss d rest hd
    obtain ⟨hb, hi⟩ := hwf
    have hp : pred b = false := by
      rw [hb]; exact hmiss i (by simp [BT.leaves])
    simp only [BT.flat, List.length_cons, List.length_nil] at hd ⊢
    cases d with
    | zero =>
      rw [List.drop_zero, List.singleton_append, scanQ_cons, hp]
      rw [if_neg (by simp), subtreeSize_leafNode hi]
      simp
    | succ n =>
      have hn : n = 0 := by omega
      subst hn
      simp
  | nd b l r ihl ihr =>
    intro hwf hmiss d rest hd
    obtain ⟨hwl, hwr, hcont, hbound⟩ := hwf
    have hml : ∀ i ∈ l.leaves, pred (boxes.getD i emptyBox) = false := fun i hi =>
      hmiss i (by simp [BT.leaves, hi])
    have hmr : ∀ i ∈ r.leaves, pred (boxes.getD i emptyBox) = false := fun i hi =>
      hmiss i (by simp [BT.leaves, hi])
    have hposl := leaves_length_pos l
    have hposr := leaves_length_pos r
    have hfll := flat_length l
    have hflr := flat_length r
    have hforest : ∀ n, n ≤ l.flat.length + r.flat.length → ∀ rest2,
        scanQ pred ((l.flat ++ r.flat).drop n ++ rest2) = scanQ pred rest2 := by
      intro n hn rest2
      rw [List.drop_append_eq_append_drop]
      by_cases hnl : n ≤ l.flat.length
      · have h0 : n - l.flat.length = 0 := by omega
        rw [h0, List.drop_zero, List.append_assoc, ihl hwl hml n _ hnl]
        have := ihr hwr hmr 0 rest2 (by omega)
        rwa [List.drop_zero] at this
      · have hln : l.flat.drop n = [] := List.drop_eq_nil_of_le (by omega)
        rw [hln, List.nil_append]
        exact ihr hwr hmr (n - l.flat.length) rest2 (by omega)
    simp only [BT.flat, List.length_cons, List.length_append] at hd ⊢
    cases d with
    | zero =>
      rw [List.drop_zero, List.cons_append, scanQ_cons]
      by_cases hp : pred b
      · rw [if_pos hp, isLeaf_internal hbound, if_neg (by simp)]
        have := hforest 0 (by omega) rest
        rwa [List.drop_zero] at this
      · rw [if_neg hp, subtreeSize_internal hbound, List.drop_append_eq_append_drop]
        have h0 : l.leaves.length + r.leaves.length - 1 - (l.flat ++ r.flat).length = 0 := by
          simp only [List.length_append]; omega
        rw [h0, List.drop_zero]
        exact hforest _ (by omega) rest
    | succ n =>
      rw [List.drop_succ_cons]
      exact hforest n (by omega) rest

theorem scanQ_flat (boxes : List BBox) (pred : BBox → Bool)
    (hmono : ∀ c b, boxLe c b → pred c = true → pred b = true) :
    ∀ t : BT, t.wf boxes → ∀ rest,
      scanQ pred (t.flat ++ rest) =
        (t.leaves.filter fun i => pred (boxes.getD i emptyBox)) ++ scanQ pred rest := by
  intro t
  induction t with
  | lf b i =>
    intro hwf rest
    obtain ⟨hb, hi⟩ := hwf
    simp only [BT.flat, BT.leaves, List.singleton_append]
    rw [scanQ_cons]
    by_cases hp : pred (boxes.getD i emptyBox) = true
    · rw [if_pos (by rw [hb]; exact hp), isLeaf_leafNode hi, if_pos rfl,
        decode_leafNode hi, List.filter_cons_of_pos (by exact hp), List.filter_nil]
      rfl
    · have hp2 : pred (boxes.getD i emptyBox) = false := by
        revert hp; cases pred (boxes.getD i emptyBox) <;> simp
      rw [if_neg (by rw [hb]; exact hp), subtreeSize_leafNode hi,
        List.filter_cons_of_neg (by simpa using hp2), List.filter_nil]
      simp
  | nd b l r ihl ihr =>
    intro hwf rest
    obtain ⟨hwl, hwr, hcont, hbound⟩ := hwf
    have hposl := leaves_length_pos l
    have hposr := leaves_length_pos r
    have hfll := flat_length l
    have hflr := flat_length r
    simp only [BT.flat, BT.leaves, List.cons_append]
    rw [scanQ_cons]
    by_cases hp : pred b
    · rw [if_pos hp, isLeaf_internal hbound, if_neg (by simp), List.append_assoc,
        ihl hwl, ihr hwr, List.filter_append, List.append_assoc]
    · rw [if_neg hp]
      have hallmiss : ∀ i ∈ l.leaves ++ r.leaves, pred (boxes.getD i emptyBox) = false := by
        intro i hi
        cases hpi : pred (boxes.getD i emptyBox) with
        | false => rfl
        | true => exact absurd (hmono _ _ (hcont i hi) hpi) hp
      have hml : ∀ i ∈ l.leaves, pred (boxes.getD i emptyBox) = false := fun i hi =>
        hallmiss i (by simp [hi])
      have hmr : ∀ i ∈ r.leaves, pred (boxes.getD i emptyBox) = false := fun i hi =>
        hallmiss i (by simp [hi])
      have hfilter : (l.leaves ++ r.leaves).filter
          (fun i => pred (boxes.getD i emptyBox)) = [] := by
        rw [List.filter_eq_nil_iff]
        intro a ha
        simpa using hallmiss a ha
      rw [hfilter, List.nil_append, subtreeSize_internal hbound,
        List.drop_append_eq_append_drop]
      have h0 : l.leaves.length + r.leaves.length - 1 - (l.flat ++ r.flat).length = 0 := by
        simp only [List.length_append]; omega
      rw [h0, List.drop_zero, List.drop_append_eq_append_drop]
      by_cases hnl : l.leaves.length + r.leaves.length - 1 ≤ l.flat.length
      · have hz : l.leaves.length + r.leaves.length - 1 - l.flat.length = 0 := by omega
        rw [hz, List.drop_zero, List.append_assoc,
          scanQ_skip boxes pred l hwl hml _ _ hnl]
        have := scanQ_skip boxes pred r hwr hmr 0 rest (by omega)
        rwa [List.drop_zero] at this
      · have hln : l.flat.drop (l.leaves.length + r.leaves.length - 1) = [] :=
          List.drop_eq_nil_of_le (by omega)
        rw [hln, List.nil_append]
        exact scanQ_skip boxes pred r hwr hmr _ rest (by omega)

/-! ### Bridging the cursor machine and the worklist view -/

theorem nextQF_scan (L : List Node) (pred : BBox → Bool)
    (hpos : ∀ nd ∈ L, 1 ≤ nd.subtreeSize) :
    ∀ f c, L.length - c < f →
      (scanQ pred (L.drop c) = [] →
        (nextQF L pred f c true none).1 = false ∧
        (nextQF L pred f c true none).2.2 = none) ∧
      (∀ i ys, scanQ pred (L.drop c) = i :: ys →
        ∃ c1, nextQF L pred f c true none = (true, c1, some i) ∧
          c < c1 ∧ scanQ pred (L.drop c1) = ys) := by
  intro f
  induction f with
  | zero => intro c h; omega
  | succ f ih =>
    intro c hf
    by_cases hc : c < L.length
    · have hdrop : L.drop c = L[c] :: L.drop (c + 1) := List.drop_eq_getElem_cons hc
      have hget : L.get ⟨c, hc⟩ = L[c] := rfl
      rw [nextQF, dif_pos hc]
      simp only [hget]
      by_cases hp : pred (L[c]).box
      · rw [if_pos hp]
        by_cases hleaf : (L[c]).isLeaf
        · rw [if_pos hleaf]
          constructor
          · intro hnil
            rw [hdrop, scanQ_cons, if_pos hp, if_pos hleaf] at hnil
            cases hnil
          · intro i ys hcons
            rw [hdrop, scanQ_cons, if_pos hp, if_pos hleaf] at hcons
            obtain ⟨rfl, rfl⟩ : (L[c]).num &&& 0x7FFFFFFF = i ∧
                scanQ pred (L.drop (c + 1)) = ys := by
              exact ⟨(List.cons_eq_cons.mp hcons).1, (List.cons_eq_cons.mp hcons).2⟩
            exact ⟨c + 1, rfl, by omega, rfl⟩
        · rw [if_neg hleaf]
          have heq : scanQ pred (L.drop c) = scanQ pred (L.drop (c + 1)) := by
            rw [hdrop, scanQ_cons, if_pos hp, if_neg hleaf]
          have := ih (c + 1) (by omega)
          constructor
          · intro hnil
            rw [heq] at hnil
            exact this.1 hnil
          · intro i ys hcons
            rw [heq] at hcons
            obtain ⟨c1, h1, h2, h3⟩ := this.2 i ys hcons
            exact ⟨c1, h1, by omega, h3⟩
      · rw [if_neg hp]
        have hsts : 1 ≤ (L[c]).subtreeSize := hpos _ (List.getElem_mem hc)
        have heq : scanQ pred (L.drop c) =
            scanQ pred (L.drop (c + (L[c]).subtreeSize)) := by
          rw [hdrop, scanQ_cons, if_neg hp, List.drop_drop]
          congr 2
          omega
        have := ih (c + (L[c]).subtreeSize) (by omega)
        constructor
        · intro hnil
          rw [heq] at hnil
          exact this.1 hnil
        · intro i ys hcons
          rw [heq] at hcons
          obtain ⟨c1, h1, h2, h3⟩ := this.2 i ys hcons
          exact ⟨c1, h1, by omega, h3⟩
    · have hnil : L.drop c = [] := List.drop_eq_nil_of_le (by omega)
      rw [nextQF, dif_neg hc]
      constructor
      · intro _; exact ⟨rfl, rfl⟩
      · intro i ys hcons
        rw [hnil, scanQ_nil] at hcons
        cases hcons

theorem drainQF_scan (L : List Node) (pred : BBox → Bool)
    (hpos : ∀ nd ∈ L, 1 ≤ nd.subtreeSize) :
    ∀ g c, L.length - c < g → drainQF L pred g c = scanQ pred (L.drop c) := by
  intro g
  induction g with
  | zero => intro c h; omega
  | succ g ih =>
    intro c hg
    rw [drainQF]
    have hspec := nextQF_scan L pred hpos (L.length + 1) c (by omega)
    cases hscan : scanQ pred (L.drop c) with
    | nil =>
      obtain ⟨h1, h2⟩ := hspec.1 hscan
      rcases hr : nextQF L pred (L.length + 1) c true none with ⟨b, c1, cell⟩
      rw [hr] at h1
      simp only at h1
      subst h1
      rfl
    | cons i ys =>
      obtain ⟨c1, hr, hlt, hys⟩ := hspec.2 i ys hscan
      have hc : c < L.length := by
        by_contra hcon
        rw [List.drop_eq_nil_of_le (by omega), scanQ_nil] at hscan
        cases hscan
      rw [hr]
      simp only [Option.getD_some]
      rw [ih c1 (by omega), hys]

theorem drainQ_scan (L : List Node) (pred : BBox → Bool)
    (hpos : ∀ nd ∈ L, 1 ≤ nd.subtreeSize) :
    drainQ L pred = scanQ pred L := by
  rw [drainQ, drainQF_scan L pred hpos (L.length + 1) 0 (by omega), List.drop_zero]

/-! ### Assembling the facts about `generate` -/

theorem generateTree_eq_flat (boxes : List BBox) (objs : List Obj)
    (h1 : 1 ≤ boxes.length) :
    generateTree boxes objs =
      (buildF boxes objs boxes.length (rootBox boxes) 0 (boxes.length - 1)).flat :=
  emitF_eq_flat boxes objs boxes.length 0 (boxes.length - 1) (rootBox boxes)
    (by omega) (by omega)

theorem generateTree_wf (boxes : List BBox) (objs : List Obj)
    (h1 : 1 ≤ boxes.length) (hmax : boxes.length ≤ 2 ^ 30)
    (hlen : objs.length = boxes.length)
    (hperm : (objs.map Obj.idx).Perm (List.range boxes.length)) :
    (buildF boxes objs boxes.length (rootBox boxes) 0 (boxes.length - 1)).wf boxes := by
  have hidxlt : ∀ k, k < objs.length → (objs.getD k dObj).idx < boxes.length := by
    intro k hk
    have hmem : (objs.getD k dObj).idx ∈ objs.map Obj.idx := by
      rw [List.getD_eq_getElem?_getD, List.getElem?_eq_getElem hk]
      exact List.mem_map_of_mem _ (List.getElem_mem hk)
    have := hperm.mem_iff.mp hmem
    simpa [List.mem_range] using this
  have hpow : (2 : Nat) ^ 30 < 2 ^ 31 := by norm_num
  apply buildF_wf boxes objs boxes.length 0 (boxes.length - 1) _ (by omega) (by omega)
  · intro hN
    have hN1 : boxes.length = 1 := by omega
    obtain ⟨b0, hb⟩ := List.length_eq_one.mp hN1
    subst hb
    have hol : objs.length = 1 := by rw [hlen]; rfl
    obtain ⟨o, ho⟩ := List.length_eq_one.mp hol
    subst ho
    have hoidx : o.idx = 0 := by
      have hr1 : List.range 1 = [0] := rfl
      simpa [hr1] using hperm
    show rootBox [b0] = [b0].getD ([o].getD 0 dObj).idx emptyBox
    have hstep : [o].getD 0 dObj = o := rfl
    rw [hstep, hoidx]
    rfl
  · intro k hk1 hk2
    exact boxLe_rootBox boxes (hidxlt k (by omega))
  · intro k hk1 hk2
    have := hidxlt k (by omega)
    omega
  · omega

theorem generateTree_leaves (boxes : List BBox) (objs : List Obj)
    (h1 : 1 ≤ boxes.length) (hlen : objs.length = boxes.length) :
    (buildF boxes objs boxes.length (rootBox boxes) 0 (boxes.length - 1)).leaves =
      objs.map Obj.idx := by
  rw [buildF_leaves boxes objs boxes.length 0 (boxes.length - 1) _ (by omega) (by omega)]
  have hn : boxes.length - 1 + 1 - 0 = objs.length := by omega
  rw [hn]
  simp only [Nat.zero_add]
  exact map_getD_range objs

/-- C2: for every BVH a successful `generate` builds over `N ≥ 1` boxes (the
sorted entry list `objs` — whatever Morton keys and sort produced it — has
index fields forming a permutation of `0, …, N-1`), and for every point `p`,
the sequence of indices that repeated calls of `next` on a query constructed
with `intersect_point(p)` yield is exactly, and without repetition, the set
`{i : boxes[i].intersects_point(p)}`; afterwards `next` returns false (the
drain is the complete yield sequence).  Note this holds even though internal
nodes' `num` under-counts their subtree (C1): a failed point test at a node
box implies failure at every box in that subtree, so the short skip only
re-visits nodes that cannot match. -/
theorem point_query_complete (boxes : List BBox) (objs : List Obj)
    (h1 : 1 ≤ boxes.length) (hmax : boxes.length ≤ 2 ^ 30)
    (hlen : objs.length = boxes.length)
    (hperm : (objs.map Obj.idx).Perm (List.range boxes.length)) (p : Vec3) :
    (∀ i, i ∈ drainQ (generateTree boxes objs) (fun bx => bx.intersectsPoint p) ↔
      (i < boxes.length ∧ (boxes.getD i emptyBox).intersectsPoint p = true)) ∧
    (drainQ (generateTree boxes objs) (fun bx => bx.intersectsPoint p)).Nodup := by
  have hwf := generateTree_wf boxes objs h1 hmax hlen hperm
  have hflat := generateTree_eq_flat boxes objs h1
  have hpos : ∀ nd ∈ generateTree boxes objs, 1 ≤ nd.subtreeSize := by
    rw [hflat]; exact wf_subtreeSize_pos boxes _ hwf
  have hmono : ∀ c b, boxLe c b → (fun bx => BBox.intersectsPoint bx p) c = true →
      (fun bx => BBox.intersectsPoint bx p) b = true := fun c b hcb hc =>
    intersectsPoint_mono hcb hc
  have hdrain : drainQ (generateTree boxes objs) (fun bx => bx.intersectsPoint p) =
      (objs.map Obj.idx).filter
        (fun i => (boxes.getD i emptyBox).intersectsPoint p) := by
    rw [drainQ_scan _ _ hpos, hflat]
    have hsf := scanQ_flat boxes (fun bx => bx.intersectsPoint p) hmono _ hwf []
    rw [List.append_nil, scanQ_nil, List.append_nil,
      generateTree_leaves boxes objs h1 hlen] at hsf
    exact hsf
  have hnodup : (objs.map Obj.idx).Nodup := hperm.symm.nodup (List.nodup_range _)
  constructor
  · intro i
    rw [hdrain, List.mem_filter]
    constructor
    · rintro ⟨hmem, hpi⟩
      have hr := hperm.mem_iff.mp hmem
      rw [List.mem_range] at hr
      exact ⟨hr, hpi⟩
    · rintro ⟨hi, hpi⟩
      exact ⟨hperm.mem_iff.mpr (List.mem_range.mpr hi), hpi⟩
  · rw [hdrain]
    exact hnodup.filter _

/-- Witness for `point_query_complete` at one box `(0,0,0)-(1,1,1)`, the entry
list `[(0, 0)]`, and the point `(0,0,0)`. -/
theorem point_query_complete_witness :
    (1 ≤ ([(⟨⟨0, 0, 0⟩, ⟨1, 1, 1⟩⟩ : BBox)] : List BBox).length) ∧
    ((∀ i, i ∈ drainQ (generateTree [⟨⟨0, 0, 0⟩, ⟨1, 1, 1⟩⟩] [⟨0, 0⟩])
        (fun bx => bx.intersectsPoint ⟨0, 0, 0⟩) ↔
      (i < ([(⟨⟨0, 0, 0⟩, ⟨1, 1, 1⟩⟩ : BBox)] : List BBox).length ∧
        (([(⟨⟨0, 0, 0⟩, ⟨1, 1, 1⟩⟩ : BBox)] : List BBox).getD i
          emptyBox).intersectsPoint ⟨0, 0, 0⟩ = true)) ∧
    (drainQ (generateTree [⟨⟨0, 0, 0⟩, ⟨1, 1, 1⟩⟩] [⟨0, 0⟩])
        (fun bx => bx.intersectsPoint ⟨0, 0, 0⟩)).Nodup) :=
  ⟨by decide,
    point_query_complete [⟨⟨0, 0, 0⟩, ⟨1, 1, 1⟩⟩] [⟨0, 0⟩]
      (by decide) (by decide) (by decide) (by decide) ⟨0, 0, 0⟩⟩

/-- C5: the tree-emission phase of `generate`, run over any `N` boxes with
`1 ≤ N ≤ 2^30` and any sorted entry list whose indices are a permutation of
`0, …, N-1`, emits exactly `2N - 1` nodes of which exactly `N` are leaves,
and the leaf object indices `num & 0x7FFFFFFF` are exactly `{0, …, N-1}`.
(As literally stated the claim also asserts `generate` *returns* true; the
call crashes inside `parallel_radix_sort` first — see `radix_sort_scatter_oob`
— so this theorem settles the structural content for the emission phase.) -/
theorem generate_tree_structure (boxes : List BBox) (objs : List Obj)
    (h1 : 1 ≤ boxes.length) (hmax : boxes.length ≤ 2 ^ 30)
    (hlen : objs.length = boxes.length)
    (hperm : (objs.map Obj.idx).Perm (List.range boxes.length)) :
    (generateTree boxes objs).length = 2 * boxes.length - 1 ∧
    ((generateTree boxes objs).filter (fun nd => nd.isLeaf)).length = boxes.length ∧
    (((generateTree boxes objs).filter (fun nd => nd.isLeaf)).map
        (fun nd => nd.num &&& 0x7FFFFFFF)).Perm (List.range boxes.length) := by
  have hwf := generateTree_wf boxes objs h1 hmax hlen hperm
  have hflat := generateTree_eq_flat boxes objs h1
  have hleaves := generateTree_leaves boxes objs h1 hlen
  have hdecode := flat_filter_decode boxes _ hwf
  refine ⟨?_, ?_, ?_⟩
  · rw [hflat, flat_length, hleaves, List.length_map, hlen]
  · have hlenmap := congrArg List.length hdecode
    rw [List.length_map, hleaves, List.length_map, hlen] at hlenmap
    rw [hflat]
    exact hlenmap
  · rw [hflat, hdecode, hleaves]
    exact hperm

/-- Witness for `generate_tree_structure`: two identical unit boxes and the
entry list `[(0,0), (0,1)]`. -/
theorem generate_tree_structure_witness :
    (1 ≤ ([⟨⟨0, 0, 0⟩, ⟨1, 1, 1⟩⟩, ⟨⟨0, 0, 0⟩, ⟨1, 1, 1⟩⟩] : List BBox).length) ∧
    ((generateTree [⟨⟨0, 0, 0⟩, ⟨1, 1, 1⟩⟩, ⟨⟨0, 0, 0⟩, ⟨1, 1, 1⟩⟩]
        [⟨0, 0⟩, ⟨0, 1⟩]).length =
      2 * ([⟨⟨0, 0, 0⟩, ⟨1, 1, 1⟩⟩, ⟨⟨0, 0, 0⟩, ⟨1, 1, 1⟩⟩] : List BBox).length - 1 ∧
    ((generateTree [⟨⟨0, 0, 0⟩, ⟨1, 1, 1⟩⟩, ⟨⟨0, 0, 0⟩, ⟨1, 1, 1⟩⟩]
        [⟨0, 0⟩, ⟨0, 1⟩]).filter (fun nd => nd.isLeaf)).length =
      ([⟨⟨0, 0, 0⟩, ⟨1, 1, 1⟩⟩, ⟨⟨0, 0, 0⟩, ⟨1, 1, 1⟩⟩] : List BBox).length ∧
    (((generateTree [⟨⟨0, 0, 0⟩, ⟨1, 1, 1⟩⟩, ⟨⟨0, 0, 0⟩, ⟨1, 1, 1⟩⟩]
        [⟨0, 0⟩, ⟨0, 1⟩]).filter (fun nd => nd.isLeaf)).map
        (fun nd => nd.num &&& 0x7FFFFFFF)).Perm
      (List.range ([⟨⟨0, 0, 0⟩, ⟨1, 1, 1⟩⟩, ⟨⟨0, 0, 0⟩, ⟨1, 1, 1⟩⟩] :
        List BBox).length)) :=
  ⟨by decide,
    generate_tree_structure [⟨⟨0, 0, 0⟩, ⟨1, 1, 1⟩⟩, ⟨⟨0, 0, 0⟩, ⟨1, 1, 1⟩⟩]
      [⟨0, 0⟩, ⟨0, 1⟩] (by decide) (by decide) (by decide) (by decide)⟩

/-- C1: evaluation of the emitted tree over two boxes.  The root is an
internal node whose subtree contains 3 nodes, yet its `num` field stores 2 —
the *object* count `last - first + 1`, not the node count the header comment
(`bvh.hpp:98`) and the spec's invariant I3 (`s ≥ 3`) describe, and the count
`query::next` consumes as a node skip distance. -/
theorem internal_num_stores_object_count :
    (generateTree [⟨⟨0, 0, 0⟩, ⟨1, 1, 1⟩⟩, ⟨⟨2, 2, 2⟩, ⟨3, 3, 3⟩⟩]
      [⟨0, 0⟩, ⟨0, 1⟩]).length = 3 ∧
    ((generateTree [⟨⟨0, 0, 0⟩, ⟨1, 1, 1⟩⟩, ⟨⟨2, 2, 2⟩, ⟨3, 3, 3⟩⟩]
      [⟨0, 0⟩, ⟨0, 1⟩]).getD 0 ⟨emptyBox, 0⟩).isLeaf = false ∧
    ((generateTree [⟨⟨0, 0, 0⟩, ⟨1, 1, 1⟩⟩, ⟨⟨2, 2, 2⟩, ⟨3, 3, 3⟩⟩]
      [⟨0, 0⟩, ⟨0, 1⟩]).getD 0 ⟨emptyBox, 0⟩).num = 2 := by
  decide

/-- C3: after a `generate` over one box the tree holds `1 = 2·1 - 1` node,
but `num_leaves` — which no statement of `generate` ever increments — is
still 0, so `size()` returns 0 instead of `N = 1` and
`len(tree) = 2·leaf_count − 1` fails (`1 ≠ 2·0 − 1`). -/
theorem generate_size_zero :
    (bvhGenerate ⟨[], 0⟩ [⟨⟨0, 0, 0⟩, ⟨1, 1, 1⟩⟩] [⟨0, 0⟩]).1 = true ∧
    (bvhGenerate ⟨[], 0⟩ [⟨⟨0, 0, 0⟩, ⟨1, 1, 1⟩⟩] [⟨0, 0⟩]).2.tree.length = 1 ∧
    bvhSize (bvhGenerate ⟨[], 0⟩ [⟨⟨0, 0, 0⟩, ⟨1, 1, 1⟩⟩] [⟨0, 0⟩]).2 = 0 := by
  decide

set_option maxRecDepth 4000 in
/-- C4: `parallel_radix_sort` scatters into `buffer`, a `std::vector` that is
declared empty and never resized; the first pass's first write `buffer[0]`
is out of bounds.  With the write bounds-checked, the embedded sort fails
(returns `none`) already on a one-element input. -/
theorem radix_sort_scatter_oob : parallelRadixSort [⟨37, 0⟩] = none := by
  decide

/-- C6 (counterexample): `expand` tests whether the *receiver* is empty, not
the argument, so an empty argument box is not ignored: expanding the
non-empty box `(2,2,2)-(3,3,3)` by the default empty box `(1,0,0)-(-1,0,0)`
changes it, and the global AABB `generate` folds over
`[(2,2,2)-(3,3,3), empty]` differs from the union of the non-empty inputs. -/
theorem expand_ignores_empty_arg :
    BBox.isEmpty emptyBox = true ∧
    expandBox ⟨⟨2, 2, 2⟩, ⟨3, 3, 3⟩⟩ emptyBox ≠ ⟨⟨2, 2, 2⟩, ⟨3, 3, 3⟩⟩ ∧
    rootBox [⟨⟨2, 2, 2⟩, ⟨3, 3, 3⟩⟩, emptyBox] ≠ rootBox [⟨⟨2, 2, 2⟩, ⟨3, 3, 3⟩⟩] := by
  decide

/-- C6 (amended): `b.expand(box)` with an empty argument leaves `b` unchanged
only under the extra condition the counterexample forces: `b` is non-empty
and its corners already bound the argument's (sentinel) corner coordinates
componentwise.  In general the corners of an empty argument participate in
the min/max like any other box's. -/
theorem expand_empty_arg_unchanged (b a : BBox) (hb : b.isEmpty = false)
    (_ha : a.isEmpty = true) (h1 : vecLe b.minPt a.minPt) (h2 : vecLe a.maxPt b.maxPt) :
    expandBox b a = b := by
  rw [expandBox, if_neg (by simp [hb])]
  obtain ⟨hx, hy, hz⟩ := h1
  obtain ⟨gx, gy, gz⟩ := h2
  rw [stdMinQ, if_neg (by linarith), stdMinQ, if_neg (by linarith),
    stdMinQ, if_neg (by linarith), stdMaxQ, if_neg (by linarith),
    stdMaxQ, if_neg (by linarith), stdMaxQ, if_neg (by linarith)]

/-- Witness for `expand_empty_arg_unchanged`: the box `(0,0,0)-(2,2,2)`
already bounds the default empty box's corners, so expanding by the empty box
leaves it unchanged. -/
theorem expand_empty_arg_unchanged_witness :
    (BBox.isEmpty (⟨⟨0, 0, 0⟩, ⟨2, 2, 2⟩⟩ : BBox) = false) ∧
    (BBox.isEmpty emptyBox = true) ∧
    expandBox ⟨⟨0, 0, 0⟩, ⟨2, 2, 2⟩⟩ emptyBox = ⟨⟨0, 0, 0⟩, ⟨2, 2, 2⟩⟩ :=
  ⟨by decide, by decide,
    expand_empty_arg_unchanged ⟨⟨0, 0, 0⟩, ⟨2, 2, 2⟩⟩ emptyBox
      (by decide) (by decide) ⟨by decide, by decide, by decide⟩
      ⟨by decide, by decide, by decide⟩⟩

/-- C7 (counterexample): `intersects_segment_precalc` — the variant the
`intersect_segment` query functor calls — has no emptiness check, and the
segment from `(-2,0,0)` to `(2,0,0)` (precomputed `d = (2,0,0)`,
`seg_a + d = (0,0,0)`, `|d| = (2,0,0)`) passes all six SAT tests against the
default empty box, returning true. -/
theorem segment_precalc_hits_empty :
    BBox.isEmpty emptyBox = true ∧
    intersectsSegmentPrecalc emptyBox ⟨2, 0, 0⟩ ⟨0, 0, 0⟩ ⟨2, 0, 0⟩ = true :=
  ⟨by decide, by
    simp [intersectsSegmentPrecalc, emptyBox, machineEps, absQ]
    norm_num⟩

/-- C7 (amended): every intersection predicate *except*
`intersects_segment_precalc` returns false whenever the receiver box is
empty: the point test cannot satisfy its x-axis clauses, and the box,
segment (non-precalc), and ray tests return false from their explicit
emptiness checks. -/
theorem predicates_false_on_empty :
    (∀ (b : BBox) (p : Vec3), b.isEmpty = true → b.intersectsPoint p = false) ∧
    (∀ (b q : BBox), b.isEmpty = true → b.intersectsBox q = false) ∧
    (∀ (b : BBox) (sa sb : Vec3), b.isEmpty = true → intersectsSegment b sa sb = false) ∧
    (∀ (b : EBBox) (o iv : EVec3), b.isEmptyE = true → intersectsRay b o iv = false) := by
  refine ⟨fun b p h => isEmpty_not_intersectsPoint h p, ?_, ?_, ?_⟩
  · intro b q h
    rw [BBox.intersectsBox, if_pos (by simp [h])]
  · intro b sa sb h
    rw [intersectsSegment, if_pos h]
  · intro b o iv h
    rw [intersectsRay, if_pos h]

/-- Witness for `predicates_false_on_empty` at concrete empty boxes and
arguments. -/
theorem predicates_false_on_empty_witness :
    BBox.intersectsPoint emptyBox ⟨0, 0, 0⟩ = false ∧
    BBox.intersectsBox emptyBox ⟨⟨0, 0, 0⟩, ⟨1, 1, 1⟩⟩ = false ∧
    intersectsSegment emptyBox ⟨0, 0, 0⟩ ⟨1, 1, 1⟩ = false ∧
    intersectsRay ⟨⟨.fin 1, .fin 0, .fin 0⟩, ⟨.fin (-1), .fin 0, .fin 0⟩⟩
      ⟨.fin 0, .fin 0, .fin 0⟩ ⟨.fin 1, .fin 1, .fin 1⟩ = false :=
  ⟨predicates_false_on_empty.1 emptyBox ⟨0, 0, 0⟩ (by decide),
    predicates_false_on_empty.2.1 emptyBox ⟨⟨0, 0, 0⟩, ⟨1, 1, 1⟩⟩ (by decide),
    predicates_false_on_empty.2.2.1 emptyBox ⟨0, 0, 0⟩ ⟨1, 1, 1⟩ (by decide),
    predicates_false_on_empty.2.2.2 ⟨⟨.fin 1, .fin 0, .fin 0⟩, ⟨.fin (-1), .fin 0, .fin 0⟩⟩
      ⟨.fin 0, .fin 0, .fin 0⟩ ⟨.fin 1, .fin 1, .fin 1⟩ (by decide)⟩

/-- C8: for every range with `first < last`, `find_split` returns a split
with `first ≤ split < last`, so both recursive sub-ranges of the emitter are
strictly smaller than `last − first` and the recursion terminates. -/
theorem find_split_in_range (objs : List Obj) (first last : Nat) (h : first < last) :
    (first ≤ findSplit objs first last ∧ findSplit objs first last < last) ∧
    (findSplit objs first last - first < last - first ∧
      last - (findSplit objs first last + 1) < last - first) := by
  obtain ⟨h1, h2⟩ := findSplit_bounds objs h
  exact ⟨⟨h1, h2⟩, by omega, by omega⟩

/-- Witness for `find_split_in_range` on a two-entry list with distinct
codes. -/
theorem find_split_in_range_witness :
    0 < 1 ∧
    ((0 ≤ findSplit [⟨0, 0⟩, ⟨1, 1⟩] 0 1 ∧ findSplit [⟨0, 0⟩, ⟨1, 1⟩] 0 1 < 1) ∧
    (findSplit [⟨0, 0⟩, ⟨1, 1⟩] 0 1 - 0 < 1 - 0 ∧
      1 - (findSplit [⟨0, 0⟩, ⟨1, 1⟩] 0 1 + 1) < 1 - 0)) :=
  ⟨by decide, find_split_in_range [⟨0, 0⟩, ⟨1, 1⟩] 0 1 (by decide)⟩

/-- C9: over the two boxes `(0,5,0)-(1,5,1)` and `(2,5,2)-(3,5,3)` the global
AABB has zero extent on y, so `make_obj_list`'s scale on that axis is
`1024/0 = +∞` and the value handed to the Morton coder on y is
`(5 − 5) · ∞ = 0 · ∞ = NaN` — and the clamp inside `morton_encode_30`
(`std::min(std::max(v, 0), 1023)`) passes the NaN through to the `uint32_t`
conversion instead of mapping it to 0.  (All float operations involved are
exact at these inputs, so the extended-rational model computes the IEEE
values.) -/
theorem zero_extent_axis_nan :
    (rootBox [⟨⟨0, 5, 0⟩, ⟨1, 5, 1⟩⟩, ⟨⟨2, 5, 2⟩, ⟨3, 5, 3⟩⟩]).minPt.y =
      (rootBox [⟨⟨0, 5, 0⟩, ⟨1, 5, 1⟩⟩, ⟨⟨2, 5, 2⟩, ⟨3, 5, 3⟩⟩]).maxPt.y ∧
    (scaledCenter ⟨⟨0, 5, 0⟩, ⟨1, 5, 1⟩⟩
      (rootBox [⟨⟨0, 5, 0⟩, ⟨1, 5, 1⟩⟩, ⟨⟨2, 5, 2⟩, ⟨3, 5, 3⟩⟩])).y = EF.nan ∧
    mortonClamp ((scaledCenter ⟨⟨0, 5, 0⟩, ⟨1, 5, 1⟩⟩
      (rootBox [⟨⟨0, 5, 0⟩, ⟨1, 5, 1⟩⟩, ⟨⟨2, 5, 2⟩, ⟨3, 5, 3⟩⟩])).y) = EF.nan := by
  have hroot : rootBox [⟨⟨0, 5, 0⟩, ⟨1, 5, 1⟩⟩, ⟨⟨2, 5, 2⟩, ⟨3, 5, 3⟩⟩] =
      ⟨⟨0, 5, 0⟩, ⟨3, 5, 3⟩⟩ := by decide
  have hnan : (scaledCenter ⟨⟨0, 5, 0⟩, ⟨1, 5, 1⟩⟩
      (rootBox [⟨⟨0, 5, 0⟩, ⟨1, 5, 1⟩⟩, ⟨⟨2, 5, 2⟩, ⟨3, 5, 3⟩⟩])).y = EF.nan := by
    rw [hroot]
    simp [scaledCenter, centerE, scaleMult, EF.add, EF.sub, EF.mul, EF.div]
    norm_num
  exact ⟨by rw [hroot], hnan, by rw [hnan]; decide⟩

/-- C10: `query::next` with a null out pointer returns the same boolean and
moves the cursor to the same position as with a valid pointer, and performs
no write: the cell behind the (absent) pointer is untouched.  Quantified over
every node array, predicate, fuel, cursor position and initial cell
contents. -/
theorem next_null_out_frame (L : List Node) (pred : BBox → Bool) :
    ∀ (f c : Nat) (cell : Option Nat),
      (nextQF L pred f c true cell).1 = (nextQF L pred f c false cell).1 ∧
      (nextQF L pred f c true cell).2.1 = (nextQF L pred f c false cell).2.1 ∧
      (nextQF L pred f c false cell).2.2 = cell := by
  intro f
  induction f with
  | zero => intro c cell; exact ⟨rfl, rfl, rfl⟩
  | succ f ih =>
    intro c cell
    by_cases hc : c < L.length
    · simp only [nextQF, dif_pos hc]
      by_cases hp : pred (L.get ⟨c, hc⟩).box
      · rw [if_pos hp, if_pos hp]
        by_cases hleaf : (L.get ⟨c, hc⟩).isLeaf
        · rw [if_pos hleaf, if_pos hleaf]
          exact ⟨rfl, rfl, rfl⟩
        · rw [if_neg hleaf, if_neg hleaf]
          exact ih (c + 1) cell
      · rw [if_neg hp, if_neg hp]
        exact ih (c + (L.get ⟨c, hc⟩).subtreeSize) cell
    · simp only [nextQF, dif_neg hc]
      refine ⟨?_, ?_, ?_⟩ <;> first
        | rfl
        | trivial

/-- Witness for `next_null_out_frame` at a concrete one-leaf node array. -/
theorem next_null_out_frame_witness :
    (nextQF [⟨⟨⟨0, 0, 0⟩, ⟨1, 1, 1⟩⟩, (1 <<< 31) ||| 0⟩] (fun bx => bx.isEmpty = false)
        2 0 true none).1 =
      (nextQF [⟨⟨⟨0, 0, 0⟩, ⟨1, 1, 1⟩⟩, (1 <<< 31) ||| 0⟩] (fun bx => bx.isEmpty = false)
        2 0 false none).1 ∧
    (nextQF [⟨⟨⟨0, 0, 0⟩, ⟨1, 1, 1⟩⟩, (1 <<< 31) ||| 0⟩] (fun bx => bx.isEmpty = false)
        2 0 true none).2.1 =
      (nextQF [⟨⟨⟨0, 0, 0⟩, ⟨1, 1, 1⟩⟩, (1 <<< 31) ||| 0⟩] (fun bx => bx.isEmpty = false)
        2 0 false none).2.1 ∧
    (nextQF [⟨⟨⟨0, 0, 0⟩, ⟨1, 1, 1⟩⟩, (1 <<< 31) ||| 0⟩] (fun bx => bx.isEmpty = false)
        2 0 false none).2.2 = none :=
  next_null_out_frame [⟨⟨⟨0, 0, 0⟩, ⟨1, 1, 1⟩⟩, (1 <<< 31) ||| 0⟩]
    (fun bx => bx.isEmpty = false) 2 0 none
